import Mathlib

/-!
Verification of the core logic of the group-purchase order manager
(`app.py`): the order-line parser `parse_pasted_order`, the fuzzy
catalog resolver `fuzzy_find`, the price-catalog loader
`load_price_files`, the manual price-entry path `save_price_item`,
and the row-consolidation engine (`_process_rows`, the rebuild in
`_delete_order_sel`, and `commit_cart`).

Modelling conventions:
* Python `str` values are modelled as `List Char` internally and
  `String` at API boundaries; Python string indices are character
  indices, as in CPython.
* Python `float` is modelled as `ℚ` (exact rational arithmetic; the
  claims under scrutiny do not hinge on binary rounding), Python `int`
  as `Int` (arbitrary precision in both).
* Python `dict` (insertion-ordered, overwrite keeps the original slot,
  new keys append) is modelled as an association list with `dictSet`.
* The `re` patterns are embedded as backtracking matchers whose
  priority order reproduces CPython `re` semantics (leftmost start,
  alternation tried left-to-right, greedy quantifiers); `\d` and `\s`
  are modelled on the ASCII digits and the Python whitespace set
  (exotic Unicode digit classes are out of modelled scope).
* `difflib.SequenceMatcher.ratio` is embedded for the no-junk case
  (both strings shorter than the autojunk threshold of 200, `isjunk`
  unset), including the `find_longest_match` dynamic program, its
  tie-breaking, and the extension loops.  The matching-blocks
  recursion is written with fuel `|a| + |b|`, which dominates its
  recursion depth.
* `while` loops without a structural bound (`_process_rows`) take a
  fuel argument and return `none` when the fuel is exhausted, so that
  non-termination of the source loop is observable as `none` for all
  fuels.
* File-system traversal and the `csv` module are outside the model: a
  price folder is a list of `(filename, rows)` pairs, each file
  already split into rows of cells exactly as `csv.reader` would
  produce; filename sorting and the suffix filter are embedded.
-/

/-! ## Python string primitives -/

/-- The character set matched by Python `str.strip()` / `\s`-adjacent
whitespace handling (Unicode whitespace as recognised by CPython). -/
def pyIsSpace (c : Char) : Bool :=
  c == ' ' || c == '\t' || c == '\n' || c == '\r' || c == '\x0b' || c == '\x0c' ||
  c == '\x1c' || c == '\x1d' || c == '\x1e' || c == '\x1f' || c == '\x85' ||
  c == '\u00A0' || c == '\u1680' ||
  ('\u2000' ≤ c && c ≤ '\u200A') ||
  c == '\u2028' || c == '\u2029' || c == '\u202F' || c == '\u205F' || c == '\u3000'

/-- `str.lower()` restricted to the alphabets the program manipulates:
ASCII letters and the Russian Cyrillic block (А–Я, Ё). -/
def pyLower (c : Char) : Char :=
  if 'A' ≤ c && c ≤ 'Z' then Char.ofNat (c.toNat + 32)
  else if 'А' ≤ c && c ≤ 'Я' then Char.ofNat (c.toNat + 32)
  else if c == 'Ё' then 'ё'
  else c

def lowerL (s : List Char) : List Char := s.map pyLower

/-- `str.strip()` (both ends, Python whitespace). -/
def pyStrip (s : List Char) : List Char :=
  ((s.dropWhile pyIsSpace).reverse.dropWhile pyIsSpace).reverse

/-- `str.rstrip(chars)` for an explicit character set. -/
def pyRStrip (cs : List Char) (s : List Char) : List Char :=
  (s.reverse.dropWhile (fun c => cs.contains c)).reverse

def strOf (s : List Char) : String := String.mk s

/-- Substring containment, `q in s` on Python strings. -/
def isSub : List Char → List Char → Bool
  | q, [] => q.isEmpty
  | q, c :: cs => q.isPrefixOf (c :: cs) || isSub q cs

/-- `s.index(q)`: index of the first occurrence of `q` in `s`
(meaningful when `isSub q s`). -/
def strIndexOf : List Char → List Char → Nat
  | [], _ => 0
  | c :: cs, q => if q.isPrefixOf (c :: cs) then 0 else 1 + strIndexOf cs q

/-- `text.replace(a, b)` for single characters. -/
def replaceChar (a b : Char) (s : List Char) : List Char :=
  s.map (fun c => if c == a then b else c)

/-- `text.replace('\r\n', '\n').replace('\r', '\n')` as a single pass. -/
def normNL : List Char → List Char
  | [] => []
  | '\r' :: '\n' :: rest => '\n' :: normNL rest
  | '\r' :: rest => '\n' :: normNL rest
  | c :: rest => c :: normNL rest

/-- `text.split('\n')` (always at least one segment, like Python). -/
def splitNL : List Char → List (List Char)
  | [] => [[]]
  | '\n' :: rest => [] :: splitNL rest
  | c :: rest =>
      match splitNL rest with
      | [] => [[c]]
      | seg :: segs => (c :: seg) :: segs

def natOfDigits (s : List Char) : Nat :=
  s.foldl (fun n c => 10 * n + (c.toNat - 48)) 0

/-- `int(s)`: optional surrounding whitespace, optional sign, ASCII
digits (CPython also accepts digit-group underscores and non-ASCII
digits; those are outside the modelled scope). -/
def pyInt? (s : List Char) : Option Int :=
  let s := pyStrip s
  let (sign, s) : Int × List Char :=
    match s with
    | '-' :: t => (-1, t)
    | '+' :: t => (1, t)
    | t => (1, t)
  if s ≠ [] && s.all (·.isDigit) then some (sign * (natOfDigits s : Int)) else none

/-- `float(s)` for plain decimal notation: optional surrounding
whitespace, optional sign, `d+`, `d+.d*`, or `.d+` (exponents,
`inf`/`nan` and digit underscores are outside the modelled scope). -/
def pyFloat? (s : List Char) : Option ℚ :=
  let s := pyStrip s
  let (sign, s) : ℚ × List Char :=
    match s with
    | '-' :: t => (-1, t)
    | '+' :: t => (1, t)
    | t => (1, t)
  let ip := s.takeWhile (·.isDigit)
  let rest := s.dropWhile (·.isDigit)
  match rest with
  | [] => if ip = [] then none else some (sign * (natOfDigits ip : ℚ))
  | '.' :: fp' =>
      let fp := fp'.takeWhile (·.isDigit)
      let rest2 := fp'.dropWhile (·.isDigit)
      if rest2 ≠ [] then none
      else if ip = [] && fp = [] then none
      else some (sign * ((natOfDigits ip : ℚ) + (natOfDigits fp : ℚ) / (10 ^ fp.length)))
  | _ => none

/-- Parse a numeric token already matched by the price regex
(`\d+[.,]\d+` or `\d+`), after `.replace(',', '.')`: always succeeds
on such tokens, mirroring `float` on them. -/
def parseNumTok (s : List Char) : ℚ :=
  let s := replaceChar ',' '.' s
  let ip := s.takeWhile (·.isDigit)
  let fp := (s.dropWhile (·.isDigit)).drop 1
  (natOfDigits ip : ℚ) + (natOfDigits fp : ℚ) / (10 ^ fp.length)

/-! ## Regex engine

A matcher sends the remaining input to the list of possible suffixes
left after a match, in backtracking priority order (first element =
the alternative CPython's engine commits to first).  All quantified
subpatterns of the three order-line regexes are single-character
classes, so greedy repetition is implemented structurally. -/

abbrev Matcher := List Char → List (List Char)

def mEps : Matcher := fun s => [s]

def mChar (p : Char → Bool) : Matcher
  | [] => []
  | c :: cs => if p c then [cs] else []

def mSeq (m1 m2 : Matcher) : Matcher := fun s => (m1 s).flatMap m2

def mAlt (m1 m2 : Matcher) : Matcher := fun s => m1 s ++ m2 s

/-- Greedy `?`. -/
def mOpt (m : Matcher) : Matcher := fun s => m s ++ [s]

/-- Greedy `*` over a character class: longest-consumed suffix first. -/
def mStar (p : Char → Bool) : Matcher
  | [] => [[]]
  | c :: cs => if p c then mStar p cs ++ [c :: cs] else [c :: cs]

/-- Greedy `+` over a character class. -/
def mPlus (p : Char → Bool) : Matcher := mSeq (mChar p) (mStar p)

/-- Case-insensitive literal (the three regexes are compiled with
`re.IGNORECASE` or contain only characters unaffected by case). -/
def mLit (cs : List Char) : Matcher :=
  cs.foldr (fun c m => mSeq (mChar (fun x => pyLower x == pyLower c)) m) mEps

def mSeqs (ms : List Matcher) : Matcher := ms.foldr mSeq mEps

def isDig (c : Char) : Bool := c.isDigit

/-- `re.search`: starting positions are tried left to right; at the
first position where the pattern matches, the engine's first
alternative is taken.  Returns (start index, matched text, suffix
after the match). -/
def reSearchGo (m : Matcher) : Nat → List Char → Option (Nat × List Char × List Char)
  | i, [] =>
      match m [] with
      | r :: _ => some (i, [], r)
      | [] => none
  | i, c :: cs =>
      match m (c :: cs) with
      | r :: _ => some (i, (c :: cs).take ((c :: cs).length - r.length), r)
      | [] => reSearchGo m (i + 1) cs

def reSearch (m : Matcher) (s : List Char) : Option (Nat × List Char × List Char) :=
  reSearchGo m 0 s

/-- `re.findall` for a pattern whose single group is the whole match
(all our matches are non-empty, so the scan always advances). -/
def reFindAllGo (m : Matcher) : Nat → List Char → List (List Char)
  | 0, _ => []
  | fuel + 1, s =>
      match reSearch m s with
      | none => []
      | some (_, mt, rest) => mt :: reFindAllGo m fuel rest

def reFindAll (m : Matcher) (s : List Char) : List (List Char) :=
  reFindAllGo m (s.length + 1) s

/-! ## The three order-line regexes -/

/-- `пл\.?\s*ведро\s+\d+[.,]\d+(?:\s*/\s*\d+[.,]\d+)?(?:\s*кг)?` -/
def weightPatA : Matcher :=
  mSeqs [mLit ['п', 'л'], mOpt (mChar (· == '.')), mStar pyIsSpace,
         mLit ['в', 'е', 'д', 'р', 'о'], mPlus pyIsSpace,
         mPlus isDig, mChar (fun c => c == '.' || c == ','), mPlus isDig,
         mOpt (mSeqs [mStar pyIsSpace, mChar (· == '/'), mStar pyIsSpace,
                      mPlus isDig, mChar (fun c => c == '.' || c == ','), mPlus isDig]),
         mOpt (mSeqs [mStar pyIsSpace, mLit ['к', 'г']])]

/-- `\d+[\.,]?\d*\s*(?:гр?|мл|кг|ml|g)\.?` -/
def weightPatB : Matcher :=
  mSeqs [mPlus isDig, mOpt (mChar (fun c => c == '.' || c == ',')), mStar isDig,
         mStar pyIsSpace,
         mAlt (mSeqs [mLit ['г'], mOpt (mChar (fun c => pyLower c == 'р'))])
              (mAlt (mLit ['м', 'л'])
                    (mAlt (mLit ['к', 'г']) (mAlt (mLit ['m', 'l']) (mLit ['g'])))),
         mOpt (mChar (· == '.'))]

/-- `_WEIGHT_RE` (alternation, bucket format first). -/
def weightPat : Matcher := mAlt weightPatA weightPatB

/-- `_QTY_RE`: `(\d+)\s*шт`, `re.IGNORECASE`. -/
def qtyPat : Matcher :=
  mSeqs [mPlus isDig, mStar pyIsSpace, mLit ['ш', 'т']]

/-- `_PRICE_RE`: `(\d+[.,]\d+|\d+)`. -/
def pricePat : Matcher :=
  mAlt (mSeqs [mPlus isDig, mChar (fun c => c == '.' || c == ','), mPlus isDig])
       (mPlus isDig)

/-! ## Order line parser (`parse_pasted_order`) -/

structure OrderLine where
  name : String
  weight : String
  price : ℚ
  quantity : Int
deriving DecidableEq, Repr

/-- The body of the `parse_pasted_order` loop, for one non-blank
stripped line: `none` means the line is routed to `skipped`. -/
def parseOrderLine (line : List Char) : Option OrderLine :=
  match reSearch weightPat line with
  | none => none
  | some (ws, wmatch, tail) =>
      let name := pyStrip (pyRStrip ['.', ',', '-', ' '] (pyStrip (line.take ws)))
      let weight := pyStrip wmatch
      if name = [] then none
      else
        let (quantity, priceZone) :=
          match reSearch qtyPat tail with
          | some (qs, qmatch, _) =>
              ((natOfDigits (qmatch.takeWhile isDig) : Int), tail.take qs)
          | none => (1, tail)
        match (reFindAll pricePat priceZone).getLast? with
        | none => none
        | some ptok =>
            some ⟨strOf name, strOf weight, parseNumTok ptok, quantity⟩

/-- `parse_pasted_order`: normalise newlines, then per line: strip,
skip blanks, and route to the parsed list or the skipped list. -/
def parse_pasted_order (text : String) : List OrderLine × List String :=
  (splitNL (normNL text.data)).foldl
    (fun acc raw =>
      if pyStrip raw = [] then acc
      else
        match parseOrderLine (pyStrip raw) with
        | some rec' => (acc.1 ++ [rec'], acc.2)
        | none => (acc.1, acc.2 ++ [strOf (pyStrip raw)]))
    ([], [])

/-- The stripped non-blank lines of the input, in order. -/
def nonBlankLines (text : String) : List (List Char) :=
  ((splitNL (normNL text.data)).map pyStrip).filter (· ≠ [])

/-! ## `difflib.SequenceMatcher` (no-junk case)

`SequenceMatcher(None, a, b).ratio()` for strings below the autojunk
threshold: `find_longest_match` is the classic dynamic program over
`b2j`, keeping the first-found longest block (earliest `i`, then
earliest `j`), followed by the two non-junk extension loops (the junk
loops are no-ops when there is no junk).  `ratioOf` is
`2 * M / (len(a) + len(b))` where `M` is the total size of the
matching blocks. -/

structure FLM where
  besti : Nat
  bestj : Nat
  bestsize : Nat
deriving DecidableEq, Repr

/-- The positions of `c` in `b` (ascending), `b2j[c]`. -/
def b2jIdx (b : List Char) (c : Char) : List Nat :=
  (List.range b.length).filter (fun j => b.getD j ' ' == c)

/-- Inner loop of `find_longest_match` over the candidate `j`s of one
row `i`, threading the previous row's run lengths `j2` (default 0) and
building the current row's `nj2`. -/
def flmJs (i : Nat) (j2 : Nat → Nat) : List Nat → (Nat → Nat) → FLM → ((Nat → Nat) × FLM)
  | [], nj2, best => (nj2, best)
  | j :: js, nj2, best =>
      let k := (if j = 0 then 0 else j2 (j - 1)) + 1
      let nj2' := fun x => if x = j then k else nj2 x
      let best' := if best.bestsize < k then ⟨i + 1 - k, j + 1 - k, k⟩ else best
      flmJs i j2 js nj2' best'

/-- Outer loop of `find_longest_match` over `i ∈ [alo, ahi)`; each row
threads the dictionary built by the previous row. -/
def flmIs (a b : List Char) (blo bhi : Nat) : List Nat → (Nat → Nat) → FLM → FLM
  | [], _, best => best
  | i :: rest, j2, best =>
      flmIs a b blo bhi rest
        (flmJs i j2 ((b2jIdx b (a.getD i ' ')).filter
          (fun j => decide (blo ≤ j) && decide (j < bhi))) (fun _ => 0) best).1
        (flmJs i j2 ((b2jIdx b (a.getD i ' ')).filter
          (fun j => decide (blo ≤ j) && decide (j < bhi))) (fun _ => 0) best).2

def flmBase (a b : List Char) (alo ahi blo bhi : Nat) : FLM :=
  flmIs a b blo bhi (List.range' alo (ahi - alo)) (fun _ => 0) ⟨alo, blo, 0⟩

/-- First extension loop: grow the block leftwards while the adjacent
characters match.  The loop variable `besti` strictly decreases, so
fuel `alo + blo + ahi + bhi` always suffices for the calls made by
`matchTotal`. -/
def extendLo (a b : List Char) (alo blo : Nat) : Nat → FLM → FLM
  | 0, f => f
  | fuel + 1, f =>
      if alo < f.besti ∧ blo < f.bestj ∧
         a.getD (f.besti - 1) ' ' == b.getD (f.bestj - 1) ' ' then
        extendLo a b alo blo fuel ⟨f.besti - 1, f.bestj - 1, f.bestsize + 1⟩
      else f

/-- Second extension loop: grow the block rightwards. -/
def extendHi (a b : List Char) (ahi bhi : Nat) : Nat → FLM → FLM
  | 0, f => f
  | fuel + 1, f =>
      if f.besti + f.bestsize < ahi ∧ f.bestj + f.bestsize < bhi ∧
         a.getD (f.besti + f.bestsize) ' ' == b.getD (f.bestj + f.bestsize) ' ' then
        extendHi a b ahi bhi fuel ⟨f.besti, f.bestj, f.bestsize + 1⟩
      else f

def find_longest_match (a b : List Char) (alo ahi blo bhi : Nat) : FLM :=
  extendHi a b ahi bhi (ahi + bhi)
    (extendLo a b alo blo (alo + blo + ahi + bhi) (flmBase a b alo ahi blo bhi))

/-- Total size of the matching blocks (the `get_matching_blocks`
recursion; merging adjacent blocks does not change the total).  The
recursion depth is at most `(ahi - alo) + (bhi - blo)`, so the fuel
passed by `ratioOf` always suffices. -/
def matchTotal (a b : List Char) : Nat → Nat → Nat → Nat → Nat → Nat
  | 0, _, _, _, _ => 0
  | fuel + 1, alo, ahi, blo, bhi =>
      if (find_longest_match a b alo ahi blo bhi).bestsize = 0 then 0
      else
        matchTotal a b fuel alo (find_longest_match a b alo ahi blo bhi).besti blo
            (find_longest_match a b alo ahi blo bhi).bestj +
          (find_longest_match a b alo ahi blo bhi).bestsize +
          matchTotal a b fuel
            ((find_longest_match a b alo ahi blo bhi).besti +
              (find_longest_match a b alo ahi blo bhi).bestsize) ahi
            ((find_longest_match a b alo ahi blo bhi).bestj +
              (find_longest_match a b alo ahi blo bhi).bestsize) bhi

/-- `SequenceMatcher(None, a, b).ratio()`; `_calculate_ratio` returns
1.0 when both strings are empty. -/
def ratioOf (a b : List Char) : ℚ :=
  if a.length + b.length = 0 then 1
  else 2 * (matchTotal a b (a.length + b.length) 0 a.length 0 b.length : ℚ) /
       ((a.length : ℚ) + (b.length : ℚ))

/-! ## Catalog entries and Python dicts -/

structure PriceItem where
  name : String
  weight : String
  price : ℚ
  std_qty : Int
  source : String
deriving DecidableEq, Repr

/-- Insertion-ordered string-keyed map (Python `dict`). -/
abbrev PriceDict := List (String × PriceItem)

/-- `d[k] = v` on a Python dict: overwriting keeps the original slot
(keys are unique in every map the program builds), a new key is
appended at the end. -/
def dictSet {α : Type} (m : List (String × α)) (k : String) (v : α) : List (String × α) :=
  match m with
  | [] => [(k, v)]
  | p :: rest => if p.1 == k then (k, v) :: rest else p :: dictSet rest k v

/-- `d.get(k)` / `k in d`. -/
def dictGet? {α : Type} (m : List (String × α)) (k : String) : Option α :=
  (m.find? (fun p => p.1 == k)).map (fun p => p.2)

/-- `del d[k]`. -/
def dictDel {α : Type} (m : List (String × α)) (k : String) : List (String × α) :=
  m.filter (fun p => !(p.1 == k))

/-! ## Stable sorting

Python's `list.sort` / `sorted` are stable sorts; a stable ascending
sort is a unique function of the (total, transitive) comparison, so we
embed them as a structurally recursive stable insertion sort, which
the kernel can evaluate. -/

/-- Insert `x` after every already-placed element `y` with `le y x`
(keeps equal-key elements in original order). -/
def insertSorted {α : Type} (le : α → α → Bool) (x : α) : List α → List α
  | [] => [x]
  | y :: ys => if le y x then y :: insertSorted le x ys else x :: y :: ys

/-- Stable ascending sort (insertion sort, elements taken in input
order). -/
def stableSort {α : Type} (le : α → α → Bool) (l : List α) : List α :=
  l.foldl (fun acc x => insertSorted le x acc) []

/-! ## Fuzzy resolver (`fuzzy_find`) -/

/-- The query as `fuzzy_find` normalises it: `query.lower().strip()`. -/
def qNorm (query : String) : List Char := pyStrip (lowerL query.data)

/-- The rank key `fuzzy_find` assigns to one catalog item, or `none`
when the item is dropped: first occurrence index for a substring hit,
`1 - ratio + 10` for a similarity hit above `0.42`. -/
def rankKey? (q : List Char) (item : PriceItem) : Option ℚ :=
  let nameLow := lowerL item.name.data
  if isSub q nameLow then some ((strIndexOf nameLow q : ℚ))
  else
    let r := ratioOf q nameLow
    if 42/100 < r then some (1 - r + 10) else none

/-- The `out` list `fuzzy_find` builds, in catalog iteration order. -/
def fuzzyScored (q : List Char) (price_list : PriceDict) : List (ℚ × String × PriceItem) :=
  price_list.filterMap (fun kv => (rankKey? q kv.2).map (fun r => (r, kv.1, kv.2)))

/-- `fuzzy_find(query, price_list, limit)`: guard empty query/catalog,
score, sort ascending by rank key (Python's `list.sort` is stable; so
is `stableSort`), truncate, project. -/
def fuzzy_find (query : String) (price_list : PriceDict) (limit : Nat := 10) : List PriceItem :=
  if query = "" ∨ price_list = [] then []
  else
    let out := fuzzyScored (qNorm query) price_list
    ((stableSort (fun x y => decide (x.1 ≤ y.1)) out).take limit).map (fun t => t.2.2)

/-! ## Catalog loader (`load_price_files`) -/

structure ColMap where
  name : Nat
  weight : Option Nat
  price : Nat
  std_qty : Option Nat
deriving DecidableEq, Repr

/-- `first(keywords)` inside `_detect_columns`: the first keyword that
occurs in some (lowered, stripped) header cell wins; the value is the
index of the first such cell. -/
def kwFirst (h : List (List Char)) : List (List Char) → Option Nat
  | [] => none
  | kw :: kws =>
      match h.findIdx? (fun cell => isSub kw cell) with
      | some i => some i
      | none => kwFirst h kws

/-- `_detect_columns`: map header cells to column roles by keyword
priority; price prefers an explicit per-unit phrase over bare "цена". -/
def _detect_columns (header : List String) : Option ColMap :=
  let h := header.map (fun c => pyStrip (lowerL c.data))
  let name_col := kwFirst h ["наименов".data]
  let weight_col := kwFirst h ["масса нетто".data, "масса".data, "вес, кг".data, "вес".data]
  let std_qty_col := kwFirst h ["штук в коробке".data, "ведер в коробке".data, "штук".data,
                                "ведер".data, "уп.".data, "в коробке".data]
  let price_col :=
    match kwFirst h ["цена за штуку".data, "цена за ведро".data, "цена за уп".data,
                     "цена за ед".data] with
    | some c => some c
    | none => kwFirst h ["цена".data]
  match name_col, price_col with
  | some n, some p => some ⟨n, weight_col, p, std_qty_col⟩
  | _, _ => none

/-- `_parse_weight`: keep the part before the first slash, append
" кг" when no recognised unit token is present. -/
def _parse_weight (raw : List Char) : List Char :=
  let raw := pyStrip raw
  let raw := if raw.contains '/' then pyStrip (raw.takeWhile (· ≠ '/')) else raw
  let has_unit := ["г", "кг", "мл", "л", "g", "kg"].any (fun u => isSub u.data (lowerL raw))
  if raw ≠ [] && !has_unit then raw ++ " кг".data else raw

def joinSpace : List (List Char) → List Char
  | [] => []
  | [c] => c
  | c :: cs => c ++ ' ' :: joinSpace cs

/-- Scan `rows[:20]` for the first row whose joined lowercase text
contains both markers (the loop breaks there even if
`_detect_columns` then fails). -/
def findMarkerRowGo (i : Nat) : List (List String) → Option (Nat × List String)
  | [] => none
  | row :: rest =>
      let low := joinSpace (row.map (fun c => lowerL c.data))
      if isSub "наименов".data low && isSub "цена".data low then some (i, row)
      else findMarkerRowGo (i + 1) rest

def findMarkerRow (rows : List (List String)) : Option (Nat × List String) :=
  findMarkerRowGo 0 (rows.take 20)

/-- The shared tail of both loader branches: reject the row when the
price or standard-quantity field failed to parse or the price is not
positive, otherwise build the `(key, entry)` insertion. -/
def rowFinish (fname : String) (name weight : List Char) (price? : Option ℚ)
    (std? : Option Int) : Option (String × PriceItem) :=
  match price?, std? with
  | some price, some std =>
      if price ≤ 0 then none
      else some (strOf (lowerL name) ++ "|" ++ strOf (lowerL weight),
                 ⟨strOf name, strOf weight, price, std, fname⟩)
  | _, _ => none

/-- One data row of the headered branch: `none` means the row is
skipped (non-numbered row, empty name, unparseable or non-positive
price, unparseable standard quantity). -/
def headerRowEntry? (cm : ColMap) (fname : String) (row : List String) : Option (String × PriceItem) :=
  if row = [] then none
  else if !(pyStrip (row.getD 0 "").data ≠ [] &&
            (pyStrip (row.getD 0 "").data).all (·.isDigit)) then none
  else if (if cm.name < row.length then
             pyStrip (replaceChar '\n' ' ' (pyStrip (row.getD cm.name "").data))
           else []) = [] then none
  else
    rowFinish fname
      (if cm.name < row.length then
         pyStrip (replaceChar '\n' ' ' (pyStrip (row.getD cm.name "").data))
       else [])
      (match cm.weight with
       | some wi => if wi < row.length then _parse_weight (row.getD wi "").data else []
       | none => [])
      (if cm.price < row.length then pyFloat? (replaceChar ',' '.' (row.getD cm.price "").data)
       else some 0)
      (match cm.std_qty with
       | some qi => if qi < row.length then pyInt? (row.getD qi "").data else some 1
       | none => some 1)

/-- One row of the positional fallback branch
(`Наименование;Вес;Цена;НормКол`). -/
def fallbackRowEntry? (fname : String) (row : List String) : Option (String × PriceItem) :=
  if row = [] then none
  else if pyStrip (row.getD 0 "").data = [] then none
  else if ["наименование", "название", "name", "товар", "№", "#"].any
            (fun w => lowerL (pyStrip (row.getD 0 "").data) = w.data) then none
  else
    rowFinish fname (pyStrip (row.getD 0 "").data)
      (if row.length > 1 then pyStrip (row.getD 1 "").data else [])
      (if row.length > 2 then pyFloat? (replaceChar ',' '.' (row.getD 2 "").data)
       else some 0)
      (if row.length > 3 then pyInt? (row.getD 3 "").data else some 1)

/-- The `(key, entry)` insertions one file performs, in row order. -/
def fileEntries (fname : String) (rows : List (List String)) : List (String × PriceItem) :=
  match findMarkerRow rows with
  | some (hidx, hrow) =>
      match _detect_columns hrow with
      | some cm => (rows.drop (hidx + 1)).filterMap (headerRowEntry? cm fname)
      | none => rows.filterMap (fallbackRowEntry? fname)
  | none => rows.filterMap (fallbackRowEntry? fname)

/-- `Path.suffix` of a file name (CPython `pathlib`). -/
def pathSuffix (name : List Char) : List Char :=
  match ((List.range name.length).filter (fun i => name.getD i ' ' == '.')).getLast? with
  | some i => if 0 < i ∧ i < name.length - 1 then name.drop i else []
  | none => []

def extOK (fname : String) : Bool :=
  lowerL (pathSuffix fname.data) == ".csv".data || lowerL (pathSuffix fname.data) == ".txt".data

/-- `load_price_files`: files in sorted filename order, `.csv`/`.txt`
only, every parsed row inserted into one shared dict (later rows and
files overwrite earlier entries under the same key). -/
def load_price_files (files : List (String × List (List String))) : PriceDict :=
  ((stableSort (fun x y => decide (x.1 ≤ y.1)) files).filter (fun f => extOK f.1)).foldl
    (fun result f => (fileEntries f.1 f.2).foldl (fun r e => dictSet r e.1 e.2) result) []

/-- The flattened insertion sequence of a whole load, in execution
order (file order, then row order). -/
def allEntries (files : List (String × List (List String))) : List (String × PriceItem) :=
  ((stableSort (fun x y => decide (x.1 ≤ y.1)) files).filter (fun f => extOK f.1)).flatMap
    (fun f => fileEntries f.1 f.2)

/-- `_make_key(name, weight)` = `name.strip().lower()|weight.strip().lower()`. -/
def _make_key (name weight : String) : String :=
  strOf (lowerL (pyStrip name.data)) ++ "|" ++ strOf (lowerL (pyStrip weight.data))

/-- `save_price_item` (manual price-entry path): parse the four entry
fields; on any parse failure or empty name leave the catalog
unchanged, otherwise insert the entry under `_make_key`. -/
def save_price_item (price_list : PriceDict) (nameF weightF priceF stdF : String) : PriceDict :=
  match pyFloat? (replaceChar ',' '.' priceF.data), pyInt? stdF.data with
  | some price, some std =>
      let name := pyStrip nameF.data
      let weight := pyStrip weightF.data
      if name = [] then price_list
      else dictSet price_list (_make_key (strOf name) (strOf weight))
             ⟨strOf name, strOf weight, price, std, "ручной ввод"⟩
  | _, _ => price_list

/-! ## Row consolidation engine -/

/-- One contribution / one committed order line, with the fields the
engine reads (`nick`, `name`, `weight`, `quantity`). -/
structure RowItem where
  nick : String
  name : String
  weight : String
  quantity : Int
deriving DecidableEq, Repr

abbrev RowsMap := List (String × List RowItem)

def bucketTotal (b : List RowItem) : Int := (b.map (·.quantity)).sum

/-- One threshold pass of `_process_rows`: walk contributions
oldest-first; a contribution that fits in the remaining need is
removed, the one that would cross the threshold is reduced in place
and the walk stops. -/
def passWalk (std : Int) : Int → List RowItem → List RowItem
  | _, [] => []
  | consumed, r :: rest =>
      if std ≤ consumed then r :: rest
      else
        let need := std - consumed
        if r.quantity ≤ need then passWalk std (consumed + r.quantity) rest
        else { r with quantity := r.quantity - need } :: rest

/-- The `while True` loop of `_process_rows`, with fuel: repeat passes
while the pending total has reached the threshold; `none` when the
fuel is exhausted (divergence of the source loop). -/
def rowsLoop (std : Int) : Nat → List RowItem → Option (List RowItem)
  | 0, _ => none
  | fuel + 1, bucket =>
      if bucketTotal bucket < std then some bucket
      else rowsLoop std fuel (passWalk std 0 bucket)

/-- `_process_rows(key, order)`: append the contribution to the bucket
(created if absent), consolidate against the catalog entry's
`std_qty`, and drop the key when the bucket empties.  A missing
catalog key (a `KeyError` in the source) and fuel exhaustion both
yield `none` (the call did not complete). -/
def _process_rows (price_list : PriceDict) (key : String) (order : RowItem) (fuel : Nat)
    (rows_items : RowsMap) : Option RowsMap :=
  match dictGet? price_list key with
  | none => none
  | some item =>
      match rowsLoop item.std_qty fuel
          (((dictGet? rows_items key).getD []) ++
            [(⟨order.nick, order.name, order.weight, order.quantity⟩ : RowItem)]) with
      | none => none
      | some b => some (if b = [] then dictDel rows_items key else dictSet rows_items key b)

/-- The per-order body of the rebuild loop of `_delete_order_sel`: orders with unknown keys
and orders whose quantity equals the standard pack quantity are
skipped. -/
def rebuildStep (price_list : PriceDict) (fuel : Nat) (m : RowsMap) (o : RowItem) :
    Option RowsMap :=
  match dictGet? price_list (_make_key o.name o.weight) with
  | none => some m
  | some item =>
      if o.quantity ≠ item.std_qty then
        _process_rows price_list (_make_key o.name o.weight) o fuel m
      else some m

/-- The rebuild in `_delete_order_sel`: clear all buckets, then replay
the contributions of the remaining orders in chronological order. -/
def rebuildRows (price_list : PriceDict) (orders : List RowItem) (fuel : Nat) : Option RowsMap :=
  orders.foldlM (rebuildStep price_list fuel) []

/-! ## Commit flow (`commit_cart`) -/

/-- A cart line as `add_to_cart` builds it. -/
structure CartItem where
  name : String
  weight : String
  price : ℚ
  quantity : Int
  total : ℚ
  std_qty : Int
deriving DecidableEq, Repr

/-- The mutable state `commit_cart` touches (order records are
modelled with the fields the engine reads). -/
structure AppState where
  price_list : PriceDict
  orders : List RowItem
  rows_items : RowsMap
deriving DecidableEq, Repr

/-- The per-cart-line body of the `commit_cart` loop: register an
ad-hoc catalog entry when the key is unknown, append the order
record, and consolidate only when the quantity differs from the
line's standard pack quantity. -/
def commit_cart_line (nick : String) (fuel : Nat) (st : AppState) (ci : CartItem) :
    Option AppState :=
  let key := _make_key ci.name ci.weight
  let pl :=
    if (dictGet? st.price_list key).isNone then
      dictSet st.price_list key ⟨ci.name, ci.weight, ci.price, ci.std_qty, "ручной ввод"⟩
    else st.price_list
  let order : RowItem := ⟨nick, ci.name, ci.weight, ci.quantity⟩
  let orders := st.orders ++ [order]
  if ci.quantity ≠ ci.std_qty then
    (_process_rows pl key order fuel st.rows_items).map (fun rm => ⟨pl, orders, rm⟩)
  else some ⟨pl, orders, st.rows_items⟩

/-- `commit_cart`: empty nick or empty cart leave the state unchanged
(the source shows a message box and returns); otherwise every cart
line is committed in order. -/
def commit_cart (nick : String) (cart : List CartItem) (fuel : Nat) (st : AppState) :
    Option AppState :=
  if pyStrip nick.data = [] ∨ cart = [] then some st
  else cart.foldlM (commit_cart_line (strOf (pyStrip nick.data)) fuel) st

/-! ## Specification predicates -/

/-- `i` is the index of the first occurrence of `q` in `s`. -/
def FirstOccAt (q s : List Char) (i : Nat) : Prop :=
  q.isPrefixOf (s.drop i) = true ∧ ∀ j < i, q.isPrefixOf (s.drop j) = false

/-- The ranking specification of `fuzzy_find` (the amended form of the
spec's ranking sentence): substring hits are keyed by first-occurrence
index; non-substring entries are kept exactly when their similarity
ratio exceeds 0.42, keyed `10 + (1 - ratio)`; the output is the sorted
scored list (ascending, truncated, projected); and every
similarity-based match ranks strictly after every substring match
whose first-occurrence index is at most 9 (a substring match at index
10 or beyond may rank after a similarity match). -/
def FuzzyRankSpec (query : String) (price_list : PriceDict) (limit : Nat) : Prop :=
  let q := qNorm query
  let keyLE : (ℚ × String × PriceItem) → (ℚ × String × PriceItem) → Bool :=
    fun x y => decide (x.1 ≤ y.1)
  let scored := fuzzyScored q price_list
  let sorted := stableSort keyLE scored
  fuzzy_find query price_list limit = (sorted.take limit).map (fun t => t.2.2) ∧
  (∀ item : PriceItem, isSub q (lowerL item.name.data) = true →
      rankKey? q item = some ((strIndexOf (lowerL item.name.data) q : ℚ)) ∧
      FirstOccAt q (lowerL item.name.data) (strIndexOf (lowerL item.name.data) q)) ∧
  (∀ item : PriceItem, isSub q (lowerL item.name.data) = false →
      rankKey? q item =
        (if 42/100 < ratioOf q (lowerL item.name.data) then
           some (1 - ratioOf q (lowerL item.name.data) + 10) else none)) ∧
  List.Pairwise (fun x y => x.1 ≤ y.1) sorted ∧
  (∀ x ∈ scored, ∀ y ∈ scored,
      isSub q (lowerL x.2.2.name.data) = true → x.1 ≤ 9 →
      isSub q (lowerL y.2.2.name.data) = false → x.1 < y.1) ∧
  (∀ i j : Fin sorted.length,
      isSub q (lowerL (sorted.get i).2.2.name.data) = false →
      isSub q (lowerL (sorted.get j).2.2.name.data) = true →
      (sorted.get j).1 ≤ 9 → (j : Nat) < (i : Nat))

/-- The bucket-map invariant of the Row Consolidation Engine: every
present key has a non-empty bucket, its key is in the catalog, and the
pending total is strictly below the catalog entry's standard pack
quantity. -/
def RowsInvariant (price_list : PriceDict) (m : RowsMap) : Prop :=
  ∀ e ∈ m, e.2 ≠ [] ∧
    ∃ item, dictGet? price_list e.1 = some item ∧ bucketTotal e.2 < item.std_qty

/-- One completed operation of the Row Consolidation Engine against a
fixed catalog: a completed `_process_rows` call or a completed rebuild
after an order deletion. -/
inductive EngineStep (price_list : PriceDict) : RowsMap → RowsMap → Prop
  | contribute (key : String) (order : RowItem) (fuel : Nat) (m m' : RowsMap) :
      _process_rows price_list key order fuel m = some m' → EngineStep price_list m m'
  | rebuild (orders : List RowItem) (fuel : Nat) (m m' : RowsMap) :
      rebuildRows price_list orders fuel = some m' → EngineStep price_list m m'

/-- Bucket maps reachable from the empty map by completed engine
operations. -/
inductive EngineReachable (price_list : PriceDict) : RowsMap → Prop
  | init : EngineReachable price_list []
  | step {m m' : RowsMap} : EngineReachable price_list m →
      EngineStep price_list m m' → EngineReachable price_list m'

/-- Last-writer-wins specification of one whole catalog load: lookup
of any key returns the entry of the last insertion under that key (in
file order, then row order), keys are unique in the final map, and
every stored key has the shape `lowercase(name)|lowercase(weight)`. -/
def LastWriterSpec (files : List (String × List (List String))) (key : String) : Prop :=
  dictGet? (load_price_files files) key =
    ((allEntries files).reverse.find? (fun e => e.1 == key)).map (fun e => e.2) ∧
  List.Nodup ((load_price_files files).map (fun e => e.1)) ∧
  ∀ e ∈ load_price_files files,
    e.1 = strOf (lowerL e.2.name.data) ++ "|" ++ strOf (lowerL e.2.weight.data)

/-! # Theorems -/

/-! ## The Python-dict model -/

theorem mem_dictSet {α : Type} {m : List (String × α)} {k : String} {v : α} {e : String × α}
    (he : e ∈ dictSet m k v) : e = (k, v) ∨ e ∈ m := by
  induction m with
  | nil =>
      simp only [dictSet, List.mem_singleton] at he
      exact Or.inl he
  | cons p rest ih =>
      simp only [dictSet] at he
      split at he
      · rcases List.mem_cons.mp he with h | h
        · exact Or.inl h
        · exact Or.inr (List.mem_cons_of_mem _ h)
      · rcases List.mem_cons.mp he with h | h
        · exact Or.inr (h ▸ List.mem_cons_self _ _)
        · rcases ih h with h' | h'
          · exact Or.inl h'
          · exact Or.inr (List.mem_cons_of_mem _ h')

theorem mem_dictDel {α : Type} {m : List (String × α)} {k : String} {e : String × α}
    (he : e ∈ dictDel m k) : e ∈ m :=
  List.mem_of_mem_filter he

theorem dictGet?_nil {α : Type} (k' : String) : dictGet? ([] : List (String × α)) k' = none := rfl

theorem dictGet?_cons {α : Type} (p : String × α) (rest : List (String × α)) (k' : String) :
    dictGet? (p :: rest) k' = if p.1 = k' then some p.2 else dictGet? rest k' := by
  unfold dictGet?
  by_cases h : p.1 = k'
  · rw [List.find?_cons_of_pos _ (by simpa using h), if_pos h]
    rfl
  · rw [List.find?_cons_of_neg _ (by simpa using h), if_neg h]

theorem dictGet?_dictSet {α : Type} (m : List (String × α)) (k : String) (v : α) (k' : String) :
    dictGet? (dictSet m k v) k' = if k' = k then some v else dictGet? m k' := by
  induction m with
  | nil =>
      show dictGet? [(k, v)] k' = _
      rw [dictGet?_cons]
      by_cases h : k' = k
      · simp [h]
      · simp [h, Ne.symm h, dictGet?_nil]
  | cons p rest ih =>
      simp only [dictSet]
      split
      · rename_i hp
        rw [beq_iff_eq] at hp
        rw [dictGet?_cons, dictGet?_cons]
        by_cases h : k' = k
        · simp [h]
        · simp [h, hp, Ne.symm h]
      · rename_i hp
        rw [beq_iff_eq] at hp
        rw [dictGet?_cons, dictGet?_cons, ih]
        by_cases hpk : p.1 = k'
        · have hkk : ¬ k' = k := fun hh => hp (hpk.trans hh)
          simp [hpk, hkk]
        · simp [hpk]

theorem dictSet_keys_nodup {α : Type} {m : List (String × α)} (k : String) (v : α)
    (h : ((m.map (fun e => e.1)).Nodup)) : ((dictSet m k v).map (fun e => e.1)).Nodup := by
  induction m with
  | nil => simp [dictSet]
  | cons p rest ih =>
      simp only [List.map_cons, List.nodup_cons] at h
      simp only [dictSet]
      split
      · rename_i hp
        rw [beq_iff_eq] at hp
        simp only [List.map_cons, List.nodup_cons]
        exact ⟨hp ▸ h.1, h.2⟩
      · rename_i hp
        rw [beq_iff_eq] at hp
        simp only [List.map_cons, List.nodup_cons]
        constructor
        · intro hcon
          rcases List.mem_map.mp hcon with ⟨x, hx, hx1⟩
          rcases mem_dictSet hx with h1 | h1
          · apply hp
            rw [← hx1, h1]
          · exact h.1 (List.mem_map.mpr ⟨x, h1, hx1⟩)
        · exact ih h.2

/-! ## The engine loop -/

theorem rowsLoop_total_lt {std : Int} :
    ∀ (fuel : Nat) (b b' : List RowItem), rowsLoop std fuel b = some b' → bucketTotal b' < std := by
  intro fuel
  induction fuel with
  | zero => intro b b' h; simp [rowsLoop] at h
  | succ fuel ih =>
      intro b b' h
      rw [rowsLoop] at h
      split at h
      · cases h
        assumption
      · exact ih _ _ h

theorem passWalk_nonpos_std {std : Int} (h : std ≤ 0) (b : List RowItem) :
    passWalk std 0 b = b := by
  cases b with
  | nil => rfl
  | cons r rest => rw [passWalk]; simp [h]

theorem rowsLoop_nonpos_std {std : Int} (hstd : std ≤ 0) (b : List RowItem)
    (hb : ¬ bucketTotal b < std) : ∀ fuel : Nat, rowsLoop std fuel b = none := by
  intro fuel
  induction fuel with
  | zero => rfl
  | succ fuel ih =>
      rw [rowsLoop, if_neg hb, passWalk_nonpos_std hstd]
      exact ih

theorem process_rows_invariant {price_list : PriceDict} {key : String} {order : RowItem}
    {fuel : Nat} {m m' : RowsMap} (hm : RowsInvariant price_list m)
    (h : _process_rows price_list key order fuel m = some m') : RowsInvariant price_list m' := by
  unfold _process_rows at h
  cases hit : dictGet? price_list key with
  | none => simp [hit] at h
  | some item =>
      simp only [hit] at h
      cases hl : rowsLoop item.std_qty fuel
          (((dictGet? m key).getD []) ++
            [(⟨order.nick, order.name, order.weight, order.quantity⟩ : RowItem)]) with
      | none => simp [hl] at h
      | some b =>
          simp only [hl, Option.some.injEq] at h
          subst h
          split
          · intro e he
            exact hm e (mem_dictDel he)
          · rename_i hb
            intro e he
            rcases mem_dictSet he with h1 | h1
            · subst h1
              exact ⟨hb, item, hit, rowsLoop_total_lt _ _ _ hl⟩
            · exact hm e h1

theorem rebuildStep_invariant {price_list : PriceDict} {fuel : Nat} {m m1 : RowsMap}
    {o : RowItem} (hm : RowsInvariant price_list m)
    (h : rebuildStep price_list fuel m o = some m1) : RowsInvariant price_list m1 := by
  unfold rebuildStep at h
  cases hd : dictGet? price_list (_make_key o.name o.weight) with
  | none =>
      simp only [hd, Option.some.injEq] at h
      exact h ▸ hm
  | some item =>
      simp only [hd] at h
      split at h
      · exact process_rows_invariant hm h
      · simp only [Option.some.injEq] at h
        exact h ▸ hm

theorem rebuild_foldl_invariant {price_list : PriceDict} {fuel : Nat} :
    ∀ (orders : List RowItem) (m m' : RowsMap), RowsInvariant price_list m →
      orders.foldlM (rebuildStep price_list fuel) m = some m' → RowsInvariant price_list m' := by
  intro orders
  induction orders with
  | nil =>
      intro m m' hm h
      simp only [List.foldlM_nil, Option.pure_def, Option.some.injEq] at h
      exact h ▸ hm
  | cons o os ih =>
      intro m m' hm h
      rw [List.foldlM_cons] at h
      cases hs : rebuildStep price_list fuel m o with
      | none => rw [hs] at h; simp at h
      | some m1 =>
          rw [hs] at h
          simp only [Option.bind_eq_bind, Option.some_bind] at h
          exact ih m1 m' (rebuildStep_invariant hm hs) h

theorem rebuildRows_invariant {price_list : PriceDict} {orders : List RowItem} {fuel : Nat}
    {m' : RowsMap} (h : rebuildRows price_list orders fuel = some m') :
    RowsInvariant price_list m' := by
  unfold rebuildRows at h
  exact rebuild_foldl_invariant orders [] m' (by intro e he; simp at he) h

/-- C2: for every state of the Row Consolidation Engine reachable by
completed operations (every completed `_process_rows` call and every
completed rebuild after an order deletion), every key present in the
bucket map has a non-empty contribution list whose quantity total is
strictly below the catalog entry's `std_qty`. -/
theorem rows_invariant_reachable (price_list : PriceDict) (m : RowsMap)
    (h : EngineReachable price_list m) : RowsInvariant price_list m := by
  induction h with
  | init => intro e he; simp at he
  | step _ hstep ih =>
      cases hstep with
      | contribute key order fuel m m' hp => exact process_rows_invariant ih hp
      | rebuild orders fuel m m' hr => exact rebuildRows_invariant hr

theorem rows_invariant_reachable_witness :
    RowsInvariant [("товар|1 кг", ⟨"Товар", "1 кг", 5, 10, "прайс"⟩)]
      [("товар|1 кг", [⟨"Аня", "Товар", "1 кг", 4⟩])] :=
  rows_invariant_reachable _ _
    (EngineReachable.step EngineReachable.init
      (EngineStep.contribute "товар|1 кг" ⟨"Аня", "Товар", "1 кг", 4⟩ 5 [] _ (by decide)))

/-- C3: starting from an empty bucket with `standardPackQuantity = 10`,
contributing `A:4`, `B:4`, `C:4` in that order leaves the bucket
holding exactly the single contribution `C:2`, with total pending
quantity `2`. -/
theorem process_rows_threshold_example :
    ((_process_rows [("товар|1 кг", ⟨"Товар", "1 кг", 5, 10, "прайс"⟩)] "товар|1 кг"
        ⟨"A", "Товар", "1 кг", 4⟩ 5 []).bind
      (fun m => (_process_rows [("товар|1 кг", ⟨"Товар", "1 кг", 5, 10, "прайс"⟩)] "товар|1 кг"
        ⟨"B", "Товар", "1 кг", 4⟩ 5 m).bind
        (_process_rows [("товар|1 кг", ⟨"Товар", "1 кг", 5, 10, "прайс"⟩)] "товар|1 кг"
          ⟨"C", "Товар", "1 кг", 4⟩ 5))) =
      some [("товар|1 кг", [⟨"C", "Товар", "1 кг", 2⟩])] ∧
    bucketTotal [⟨"C", "Товар", "1 кг", 2⟩] = 2 := by
  constructor
  · decide
  · decide

set_option maxRecDepth 40000 in
/-- C5: the claim that the consolidation loop terminates for every
`standardPackQuantity` present in the catalog is wrong — the loader
accepts a row with standard quantity `0` (prices are only checked for
positivity), and `_process_rows` then loops forever: for every fuel
the loop fails to exit. -/
theorem process_rows_diverges_on_zero_std :
    load_price_files [("prices.csv", [["Огурец", "100 г", "5,00", "0"]])] =
      [("огурец|100 г", ⟨"Огурец", "100 г", 5, 0, "prices.csv"⟩)] ∧
    ∀ fuel : Nat,
      _process_rows [("огурец|100 г", ⟨"Огурец", "100 г", 5, 0, "prices.csv"⟩)]
        "огурец|100 г" ⟨"Маша", "Огурец", "100 г", 1⟩ fuel [] = none := by
  constructor
  · with_unfolding_all decide
  · intro fuel
    have hget : dictGet? [("огурец|100 г", (⟨"Огурец", "100 г", 5, 0, "prices.csv"⟩ : PriceItem))]
        "огурец|100 г" = some ⟨"Огурец", "100 г", 5, 0, "prices.csv"⟩ := rfl
    have h1 : rowsLoop (0 : Int) fuel [(⟨"Маша", "Огурец", "100 г", 1⟩ : RowItem)] = none :=
      rowsLoop_nonpos_std (le_refl 0) _ (by decide) fuel
    unfold _process_rows
    simp only [hget, dictGet?_nil, Option.getD_none, List.nil_append, h1]

/-! ## Order line parser -/

theorem length_filterMap_add_filter_isNone {α β : Type} (f : α → Option β) (l : List α) :
    (l.filterMap f).length + (l.filter (fun x => (f x).isNone)).length = l.length := by
  induction l with
  | nil => simp
  | cons x xs ih =>
      cases h : f x <;> simp [List.filterMap_cons, List.filter_cons, h] <;> omega

theorem ppo_foldl (lines : List (List Char)) (acc : List OrderLine × List String) :
    lines.foldl
      (fun acc raw =>
        if pyStrip raw = [] then acc
        else
          match parseOrderLine (pyStrip raw) with
          | some rec' => (acc.1 ++ [rec'], acc.2)
          | none => (acc.1, acc.2 ++ [strOf (pyStrip raw)])) acc =
      (acc.1 ++ ((lines.map pyStrip).filter (· ≠ [])).filterMap parseOrderLine,
       acc.2 ++ (((lines.map pyStrip).filter (· ≠ [])).filter
          (fun l => (parseOrderLine l).isNone)).map strOf) := by
  induction lines generalizing acc with
  | nil => simp
  | cons raw rest ih =>
      rw [List.foldl_cons]
      by_cases h : pyStrip raw = []
      · rw [if_pos h, ih]
        simp [h]
      · rw [if_neg h]
        cases hp : parseOrderLine (pyStrip raw) with
        | some r =>
            simp only [hp]
            rw [ih]
            simp [h, hp, List.filter_cons, List.filterMap_cons]
        | none =>
            simp only [hp]
            rw [ih]
            simp [h, hp, List.filter_cons, List.filterMap_cons]

/-- C6: `parse_pasted_order` is total by construction, and for every
input text each non-blank (stripped) line yields exactly one outcome:
one parsed record when the line body parses, otherwise one entry in
the skipped list equal to the line's trimmed text; both outputs
preserve input line order, and the outcome counts add up to the
number of non-blank lines. -/
theorem parse_pasted_order_line_outcomes (text : String) :
    (parse_pasted_order text).1 = (nonBlankLines text).filterMap parseOrderLine ∧
    (parse_pasted_order text).2 =
      ((nonBlankLines text).filter (fun l => (parseOrderLine l).isNone)).map strOf ∧
    (parse_pasted_order text).1.length + (parse_pasted_order text).2.length =
      (nonBlankLines text).length := by
  have h := ppo_foldl (splitNL (normNL text.data)) ([], [])
  unfold parse_pasted_order nonBlankLines
  rw [h]
  simp only [List.nil_append, List.length_map]
  exact ⟨trivial, trivial, length_filterMap_add_filter_isNone parseOrderLine _⟩

set_option maxRecDepth 40000 in
/-- C7: parsing the single documented round-trip line yields exactly
one record with the expected name, weight token, price and quantity,
and no skipped lines. -/
theorem parse_pasted_order_roundtrip :
    parse_pasted_order "Вяленые томаты с прованскими травами 130 гр 95.40 - 2шт" =
      ([⟨"Вяленые томаты с прованскими травами", "130 гр", 95.40, 2⟩], []) := by
  with_unfolding_all decide

/-! ## Commit flow -/

theorem commit_cart_line_frame {nick : String} {fuel : Nat} {st : AppState} {ci : CartItem}
    (h : ci.quantity = ci.std_qty) :
    commit_cart_line nick fuel st ci =
      some ⟨(if (dictGet? st.price_list (_make_key ci.name ci.weight)).isNone then
               dictSet st.price_list (_make_key ci.name ci.weight)
                 ⟨ci.name, ci.weight, ci.price, ci.std_qty, "ручной ввод"⟩
             else st.price_list),
            st.orders ++ [⟨nick, ci.name, ci.weight, ci.quantity⟩], st.rows_items⟩ := by
  simp only [commit_cart_line]
  rw [if_neg (by simp [h])]

theorem commit_cart_foldl_frame {nick : String} {fuel : Nat} :
    ∀ (cart : List CartItem) (st : AppState), (∀ ci ∈ cart, ci.quantity = ci.std_qty) →
      ∃ pl' orders', cart.foldlM (commit_cart_line nick fuel) st =
        some ⟨pl', orders', st.rows_items⟩ := by
  intro cart
  induction cart with
  | nil =>
      intro st h
      exact ⟨st.price_list, st.orders, by rw [List.foldlM_nil]; rfl⟩
  | cons ci cs ih =>
      intro st h
      have h1 := @commit_cart_line_frame nick fuel st ci
        (h ci (List.mem_cons_self _ _))
      obtain ⟨pl2, o2, h2⟩ := ih ⟨_, _, st.rows_items⟩ (fun x hx => h x (List.mem_cons_of_mem _ hx))
      rw [List.foldlM_cons, h1]
      simp only [Option.bind_eq_bind, Option.some_bind]
      exact ⟨pl2, o2, h2⟩

/-- C10: `commit_cart` consolidates only cart lines whose quantity
differs from the line's standard pack quantity; committing a cart in
which every line has quantity equal to its standard pack quantity
completes and leaves the rows-bucket map untouched. -/
theorem commit_cart_frame (nick : String) (cart : List CartItem) (fuel : Nat) (st : AppState)
    (h : ∀ ci ∈ cart, ci.quantity = ci.std_qty) :
    ∃ pl' orders', commit_cart nick cart fuel st = some ⟨pl', orders', st.rows_items⟩ := by
  unfold commit_cart
  split
  · exact ⟨st.price_list, st.orders, rfl⟩
  · exact commit_cart_foldl_frame cart st h

theorem commit_cart_frame_witness :
    ∃ pl' orders',
      commit_cart "Ник" [⟨"Сыр", "1 кг", 10, 6, 60, 6⟩] 1 ⟨[], [], []⟩ =
        some ⟨pl', orders', ([] : RowsMap)⟩ :=
  commit_cart_frame "Ник" [⟨"Сыр", "1 кг", 10, 6, 60, 6⟩] 1 ⟨[], [], []⟩ (by decide)

/-! ## Catalog loader -/

theorem rowFinish_spec {fname : String} {name weight : List Char} {price? : Option ℚ}
    {std? : Option Int} {e : String × PriceItem}
    (h : rowFinish fname name weight price? std? = some e) :
    0 < e.2.price ∧
    e.1 = strOf (lowerL e.2.name.data) ++ "|" ++ strOf (lowerL e.2.weight.data) := by
  unfold rowFinish at h
  split at h
  · split at h
    · simp at h
    · rename_i hple
      simp only [Option.some.injEq] at h
      subst h
      exact ⟨lt_of_not_le hple, rfl⟩
  · simp at h

theorem headerRowEntry?_spec {cm : ColMap} {fname : String} {row : List String}
    {e : String × PriceItem} (h : headerRowEntry? cm fname row = some e) :
    0 < e.2.price ∧
    e.1 = strOf (lowerL e.2.name.data) ++ "|" ++ strOf (lowerL e.2.weight.data) := by
  unfold headerRowEntry? at h
  split at h
  · simp at h
  · split at h
    · simp at h
    · split at h
      · split at h
        · simp at h
        · exact rowFinish_spec h
      · rw [if_pos rfl] at h
        simp at h

theorem fallbackRowEntry?_spec {fname : String} {row : List String}
    {e : String × PriceItem} (h : fallbackRowEntry? fname row = some e) :
    0 < e.2.price ∧
    e.1 = strOf (lowerL e.2.name.data) ++ "|" ++ strOf (lowerL e.2.weight.data) := by
  unfold fallbackRowEntry? at h
  split at h
  · simp at h
  · split at h
    · simp at h
    · split at h
      · simp at h
      · exact rowFinish_spec h

theorem fileEntries_spec {fname : String} {rows : List (List String)}
    {e : String × PriceItem} (h : e ∈ fileEntries fname rows) :
    0 < e.2.price ∧
    e.1 = strOf (lowerL e.2.name.data) ++ "|" ++ strOf (lowerL e.2.weight.data) := by
  unfold fileEntries at h
  split at h
  · split at h
    · rcases List.mem_filterMap.mp h with ⟨row, _, hrow⟩
      exact headerRowEntry?_spec hrow
    · rcases List.mem_filterMap.mp h with ⟨row, _, hrow⟩
      exact fallbackRowEntry?_spec hrow
  · rcases List.mem_filterMap.mp h with ⟨row, _, hrow⟩
    exact fallbackRowEntry?_spec hrow

theorem nested_foldl_entries :
    ∀ (fs : List (String × List (List String))) (init : PriceDict),
      fs.foldl (fun result f => (fileEntries f.1 f.2).foldl (fun r e => dictSet r e.1 e.2) result)
          init =
        (fs.flatMap (fun f => fileEntries f.1 f.2)).foldl (fun r e => dictSet r e.1 e.2) init := by
  intro fs
  induction fs with
  | nil => intro init; simp
  | cons f rest ih =>
      intro init
      rw [List.foldl_cons, List.flatMap_cons, List.foldl_append, ih]

theorem load_price_files_eq_foldl (files : List (String × List (List String))) :
    load_price_files files =
      (allEntries files).foldl (fun r e => dictSet r e.1 e.2) [] := by
  unfold load_price_files allEntries
  exact nested_foldl_entries _ []

theorem mem_foldl_dictSet {α : Type} :
    ∀ (es : List (String × α)) (init : List (String × α)) (e : String × α),
      e ∈ es.foldl (fun r x => dictSet r x.1 x.2) init → e ∈ init ∨ e ∈ es := by
  intro es
  induction es with
  | nil => intro init e h; exact Or.inl h
  | cons x xs ih =>
      intro init e h
      rw [List.foldl_cons] at h
      rcases ih _ e h with h1 | h1
      · rcases mem_dictSet h1 with h2 | h2
        · right
          rw [h2]
          exact List.mem_cons_self _ _
        · exact Or.inl h2
      · exact Or.inr (List.mem_cons_of_mem _ h1)

/-- C4 (amended): every catalog entry stored by the Catalog Loader, in
either mode, has `unitPrice` strictly greater than 0 — a data row with
price ≤ 0 never appears in the loaded catalog.  (The `≥ 1` check on
`standardPackQuantity`, and any price check on the manual price-entry
path, do not exist in the code; see the counterexample.) -/
theorem load_price_files_price_pos (files : List (String × List (List String)))
    (e : String × PriceItem) (he : e ∈ load_price_files files) : 0 < e.2.price := by
  rw [load_price_files_eq_foldl] at he
  rcases mem_foldl_dictSet _ _ _ he with h | h
  · simp at h
  · rcases List.mem_flatMap.mp h with ⟨f, _, hf⟩
    exact (fileEntries_spec hf).1

set_option maxRecDepth 40000 in
theorem load_price_files_price_pos_witness :
    (0 : ℚ) <
      ((("гриб|200 г", (⟨"Гриб", "200 г", 7/2, 7, "f.csv"⟩ : PriceItem)) :
        String × PriceItem)).2.price :=
  load_price_files_price_pos [("f.csv", [["Гриб", "200 г", "3.5", "7"]])]
    ("гриб|200 г", ⟨"Гриб", "200 г", 7/2, 7, "f.csv"⟩) (by with_unfolding_all decide)

set_option maxRecDepth 40000 in
/-- C4 counterexample: the loader stores a row whose standard pack
quantity field parses to `0` (only the price is checked), and the
manual price-entry path `save_price_item` stores an entry with a
negative price (only parseability is checked) — so the claimed
invariants `unitPrice > 0` and `standardPackQuantity ≥ 1` do not hold
for every stored entry. -/
theorem catalog_stores_invalid_entries :
    dictGet? (load_price_files [("prices.csv", [["Огурец", "100 г", "5,00", "0"]])])
        "огурец|100 г" = some ⟨"Огурец", "100 г", 5, 0, "prices.csv"⟩ ∧
    ¬ ((1 : Int) ≤ (⟨"Огурец", "100 г", 5, 0, "prices.csv"⟩ : PriceItem).std_qty) ∧
    dictGet? (save_price_item [] "Товар" "1 кг" "-5" "3") "товар|1 кг" =
      some ⟨"Товар", "1 кг", -5, 3, "ручной ввод"⟩ ∧
    ¬ ((0 : ℚ) < (⟨"Товар", "1 кг", -5, 3, "ручной ввод"⟩ : PriceItem).price) := by
  with_unfolding_all decide

theorem dictGet?_foldl_dictSet {α : Type} :
    ∀ (es : List (String × α)) (init : List (String × α)) (k : String),
      dictGet? (es.foldl (fun r x => dictSet r x.1 x.2) init) k =
        match es.reverse.find? (fun x => x.1 == k) with
        | some x => some x.2
        | none => dictGet? init k := by
  intro es
  induction es with
  | nil => intro init k; simp
  | cons x xs ih =>
      intro init k
      rw [List.foldl_cons, ih, List.reverse_cons, List.find?_append]
      cases hf : xs.reverse.find? (fun x => x.1 == k) with
      | some y => simp [Option.or]
      | none =>
          simp only [Option.or]
          rw [dictGet?_dictSet]
          by_cases hk : x.1 = k
          · simp [List.find?, hk]
          · simp [List.find?, hk, Ne.symm hk]
            have : (x.1 == k) = false := by simp [hk]
            simp [this]

theorem foldl_dictSet_keys_nodup {α : Type} :
    ∀ (es : List (String × α)) (init : List (String × α)),
      ((init.map (fun e => e.1)).Nodup) →
      (((es.foldl (fun r x => dictSet r x.1 x.2) init).map (fun e => e.1)).Nodup) := by
  intro es
  induction es with
  | nil => intro init h; exact h
  | cons x xs ih =>
      intro init h
      rw [List.foldl_cons]
      exact ih _ (dictSet_keys_nodup _ _ h)

/-- C8: the loader processes files in sorted filename order, inserts
every fully parsed row under the key `lowercase(name)|lowercase(weight)`,
and a later row (by file order, then row order) under the same key
completely replaces the earlier entry: lookup in the final catalog is
the last insertion of the flattened entry sequence, and the final map
has exactly one entry per key. -/
theorem load_price_files_last_writer (files : List (String × List (List String)))
    (key : String) : LastWriterSpec files key := by
  refine ⟨?_, ?_, ?_⟩
  · rw [load_price_files_eq_foldl, dictGet?_foldl_dictSet]
    cases hf : (allEntries files).reverse.find? (fun x => x.1 == key) <;>
      simp [hf, dictGet?_nil]
  · rw [load_price_files_eq_foldl]
    exact foldl_dictSet_keys_nodup _ [] (by simp)
  · intro e he
    rw [load_price_files_eq_foldl] at he
    rcases mem_foldl_dictSet _ _ _ he with h | h
    · simp at h
    · rcases List.mem_flatMap.mp h with ⟨f, _, hf⟩
      exact (fileEntries_spec hf).2

set_option maxRecDepth 40000 in
theorem load_price_files_last_writer_witness :
    LastWriterSpec
      [("b.csv", [["Огурец", "100 г", "1", "2"]]),
       ("a.csv", [["Огурец", "100 г", "3", "4"]])] "огурец|100 г" :=
  load_price_files_last_writer _ _

set_option maxRecDepth 100000 in
/-- C9 counterexample: a data row whose standard-pack-quantity field
is present but not an integer (`"abc"`) is skipped entirely — in the
positional mode (first conjunct: only the well-formed second row is
stored) and in the headered mode (second conjunct: no row is stored)
— rather than stored with the default 1 as claimed. -/
theorem unparseable_std_qty_skips_row :
    load_price_files
        [("a.csv", [["Огурец", "100 г", "5,00", "abc"], ["Гриб", "200 г", "3.5", "7"]])] =
      [("гриб|200 г", ⟨"Гриб", "200 г", 7/2, 7, "a.csv"⟩)] ∧
    load_price_files
        [("b.csv", [["№", "Наименование", "Вес", "Цена", "Штук"],
                    ["1", "Огурец", "100 г", "5,00", "abc"]])] = [] := by
  with_unfolding_all decide

/-- C9 (amended): the standard pack quantity defaults to 1 exactly
when the field is absent — in positional mode when the row has no
fourth cell, in headered mode when no standard-quantity column was
mapped or the row is too short to reach it — for every row that
otherwise parses (non-empty non-header name, parseable positive
price).  When the field is present but unparseable the row is skipped
(see the counterexample). -/
theorem std_qty_defaults_when_absent :
    (∀ (fname a b c : String) (p : ℚ),
        pyStrip a.data ≠ [] →
        (∀ w ∈ ["наименование", "название", "name", "товар", "№", "#"],
            lowerL (pyStrip a.data) ≠ w.data) →
        pyFloat? (replaceChar ',' '.' c.data) = some p → 0 < p →
        (fallbackRowEntry? fname [a, b, c]).map (fun e => e.2.std_qty) = some 1) ∧
    (∀ (cm : ColMap) (fname : String) (row : List String) (p : ℚ),
        (cm.std_qty = none ∨ ∃ qi, cm.std_qty = some qi ∧ row.length ≤ qi) →
        row ≠ [] →
        pyStrip (row.getD 0 "").data ≠ [] →
        ((pyStrip (row.getD 0 "").data).all (·.isDigit)) = true →
        (if cm.name < row.length then
            pyStrip (replaceChar '\n' ' ' (pyStrip (row.getD cm.name "").data))
          else []) ≠ [] →
        (if cm.price < row.length then pyFloat? (replaceChar ',' '.' (row.getD cm.price "").data)
          else some 0) = some p → 0 < p →
        (headerRowEntry? cm fname row).map (fun e => e.2.std_qty) = some 1) := by
  constructor
  · intro fname a b c p hname hskip hfloat hp
    have hskipB : (["наименование", "название", "name", "товар", "№", "#"].any
        (fun w => lowerL (pyStrip ([a, b, c].getD 0 "").data) = w.data)) = false := by
      rw [List.any_eq_false]
      intro w hw
      simpa using hskip w hw
    unfold fallbackRowEntry?
    rw [if_neg (by simp), if_neg (by simpa using hname), if_neg (by rw [hskipB]; simp)]
    show (rowFinish fname (pyStrip a.data)
        (if 1 < 3 then pyStrip b.data else [])
        (if 2 < 3 then pyFloat? (replaceChar ',' '.' c.data) else some 0)
        (if 3 < 3 then pyInt? (("" : String)).data else some 1)).map (fun e => e.2.std_qty) =
      some 1
    rw [if_pos (by norm_num), if_pos (by norm_num), if_neg (by norm_num), hfloat]
    simp only [rowFinish]
    rw [if_neg (not_le.mpr hp)]
    rfl
  · intro cm fname row p habs hrow hc0 hdig hname hfloat hp
    have hstd : (match cm.std_qty with
        | some qi => if qi < row.length then pyInt? (row.getD qi "").data else some 1
        | none => some 1) = some 1 := by
      rcases habs with h | ⟨qi, hqi, hlen⟩
      · simp only [h]
      · simp only [hqi]
        rw [if_neg (by omega)]
    unfold headerRowEntry?
    rw [if_neg hrow, if_neg (by
          simp only [List.getD_eq_getElem?_getD] at hc0 hdig
          simp
          exact ⟨hc0, List.all_eq_true.mp hdig⟩),
        if_neg hname, hfloat, hstd]
    simp only [rowFinish]
    rw [if_neg (not_le.mpr hp)]
    rfl

theorem std_qty_defaults_when_absent_witness :
    (fallbackRowEntry? "f.csv" ["Огурец", "100 г", "5,00"]).map (fun e => e.2.std_qty) =
      some 1 :=
  std_qty_defaults_when_absent.1 "f.csv" "Огурец" "100 г" "5,00" 5
    (by decide) (by decide) (by with_unfolding_all decide) (by norm_num)

/-! ## Stable sort -/

theorem insertSorted_perm {α : Type} (le : α → α → Bool) (x : α) :
    ∀ l : List α, (insertSorted le x l).Perm (x :: l) := by
  intro l
  induction l with
  | nil => exact List.Perm.refl _
  | cons y ys ih =>
      rw [insertSorted]
      split
      · exact (ih.cons y).trans (List.Perm.swap x y ys)
      · exact List.Perm.refl _

theorem stableSort_perm {α : Type} (le : α → α → Bool) (l : List α) :
    (stableSort le l).Perm l := by
  suffices h : ∀ (l acc : List α),
      (l.foldl (fun acc x => insertSorted le x acc) acc).Perm (acc ++ l) by
    simpa using h l []
  intro l
  induction l with
  | nil => intro acc; simp
  | cons x xs ih =>
      intro acc
      rw [List.foldl_cons]
      refine (ih (insertSorted le x acc)).trans ?_
      refine ((insertSorted_perm le x acc).append_right xs).trans ?_
      simpa using (@List.perm_middle _ x acc xs).symm

theorem mem_stableSort {α : Type} (le : α → α → Bool) {x : α} {l : List α} :
    x ∈ stableSort le l ↔ x ∈ l :=
  (stableSort_perm le l).mem_iff

theorem insertSorted_pairwise {α : Type} {le : α → α → Bool}
    (htrans : ∀ a b c, le a b = true → le b c = true → le a c = true)
    (htotal : ∀ a b, le a b = true ∨ le b a = true) (x : α) :
    ∀ l : List α, l.Pairwise (fun a b => le a b = true) →
      (insertSorted le x l).Pairwise (fun a b => le a b = true) := by
  intro l
  induction l with
  | nil => intro _; simp [insertSorted]
  | cons y ys ih =>
      intro hl
      rw [List.pairwise_cons] at hl
      rw [insertSorted]
      split
      · rename_i hyx
        rw [List.pairwise_cons]
        constructor
        · intro z hz
          rcases List.mem_cons.mp ((insertSorted_perm le x ys).mem_iff.mp hz) with hz | hz
          · exact hz ▸ hyx
          · exact hl.1 z hz
        · exact ih hl.2
      · rename_i hyx
        have hxy : le x y = true := by
          rcases htotal x y with h | h
          · exact h
          · exact absurd h hyx
        rw [List.pairwise_cons]
        constructor
        · intro z hz
          rcases List.mem_cons.mp hz with hz | hz
          · exact hz ▸ hxy
          · exact htrans x y z hxy (hl.1 z hz)
        · exact List.pairwise_cons.mpr hl
      
theorem stableSort_pairwise {α : Type} {le : α → α → Bool}
    (htrans : ∀ a b c, le a b = true → le b c = true → le a c = true)
    (htotal : ∀ a b, le a b = true ∨ le b a = true) (l : List α) :
    (stableSort le l).Pairwise (fun a b => le a b = true) := by
  suffices h : ∀ (l acc : List α), acc.Pairwise (fun a b => le a b = true) →
      (l.foldl (fun acc x => insertSorted le x acc) acc).Pairwise
        (fun a b => le a b = true) by
    exact h l [] List.Pairwise.nil
  intro l
  induction l with
  | nil => intro acc h; exact h
  | cons x xs ih =>
      intro acc h
      rw [List.foldl_cons]
      exact ih _ (insertSorted_pairwise htrans htotal x acc h)

/-! ## Substring search -/

theorem isSub_nil_left : ∀ s : List Char, isSub [] s = true := by
  intro s
  cases s with
  | nil => rfl
  | cons c cs => rw [isSub]; simp [List.isPrefixOf]

theorem strIndexOf_firstOcc {q : List Char} :
    ∀ {s : List Char}, isSub q s = true → FirstOccAt q s (strIndexOf s q) := by
  intro s
  induction s with
  | nil =>
      intro h
      rw [isSub] at h
      have hq : q = [] := by simpa [List.isEmpty_iff] using h
      subst hq
      exact ⟨by simp [strIndexOf, List.isPrefixOf], fun j hj => absurd hj (Nat.not_lt_zero j)⟩
  | cons c cs ih =>
      intro h
      rw [strIndexOf]
      split
      · rename_i hp
        exact ⟨by simpa using hp, fun j hj => absurd hj (Nat.not_lt_zero j)⟩
      · rename_i hp
        have hsub : isSub q cs = true := by
          rw [isSub] at h
          rcases Bool.or_eq_true_iff.mp h with h1 | h1
          · exact absurd h1 hp
          · exact h1
        obtain ⟨h1, h2⟩ := ih hsub
        refine ⟨?_, ?_⟩
        · rw [Nat.add_comm, List.drop_succ_cons]
          exact h1
        · intro j hj
          cases j with
          | zero =>
              rw [List.drop_zero]
              exact (Bool.not_eq_true _) ▸ hp
          | succ j' =>
              rw [List.drop_succ_cons]
              exact h2 j' (by omega)

/-! ## Bounds on the matching blocks

The `b`-side bounds of `find_longest_match` (the block lies inside
`[blo, bhi)`), and hence a bound `matchTotal ≤ bhi - blo`, giving
`ratioOf a b < 2` whenever `a` is non-empty. -/

theorem flmJs_bound {blo bhi i : Nat} {j2 : Nat → Nat}
    (h2 : ∀ j, j2 j ≤ j + 1 - blo) :
    ∀ (js : List Nat) (nj2 : Nat → Nat) (best : FLM),
      (∀ j ∈ js, blo ≤ j ∧ j < bhi) →
      (∀ j, nj2 j ≤ j + 1 - blo) →
      blo ≤ best.bestj → best.bestj + best.bestsize ≤ bhi →
      (∀ j, (flmJs i j2 js nj2 best).1 j ≤ j + 1 - blo) ∧
      blo ≤ (flmJs i j2 js nj2 best).2.bestj ∧
      (flmJs i j2 js nj2 best).2.bestj + (flmJs i j2 js nj2 best).2.bestsize ≤ bhi := by
  intro js
  induction js with
  | nil => intro nj2 best hjs hn hb1 hb2; exact ⟨hn, hb1, hb2⟩
  | cons j js ih =>
      intro nj2 best hjs hn hb1 hb2
      have hj := hjs j (List.mem_cons_self _ _)
      simp only [flmJs]
      set k := (if j = 0 then 0 else j2 (j - 1)) + 1 with hkdef
      have hk : k ≤ j + 1 - blo := by
        rw [hkdef]
        split
        · omega
        · have := h2 (j - 1)
          omega
      have hk1 : 1 ≤ k := by rw [hkdef]; omega
      refine ih _ _ (fun x hx => hjs x (List.mem_cons_of_mem _ hx)) ?_ ?_ ?_
      · intro x
        dsimp only
        split
        · rename_i hxj
          subst hxj
          exact hk
        · exact hn x
      · split
        · show blo ≤ j + 1 - k
          omega
        · exact hb1
      · split
        · show j + 1 - k + k ≤ bhi
          omega
        · exact hb2

theorem flmIs_bound {a b : List Char} {blo bhi : Nat} :
    ∀ (idxs : List Nat) (j2 : Nat → Nat) (best : FLM),
      (∀ j, j2 j ≤ j + 1 - blo) →
      blo ≤ best.bestj → best.bestj + best.bestsize ≤ bhi →
      blo ≤ (flmIs a b blo bhi idxs j2 best).bestj ∧
      (flmIs a b blo bhi idxs j2 best).bestj +
        (flmIs a b blo bhi idxs j2 best).bestsize ≤ bhi := by
  intro idxs
  induction idxs with
  | nil => intro j2 best h2 hb1 hb2; exact ⟨hb1, hb2⟩
  | cons i rest ih =>
      intro j2 best h2 hb1 hb2
      obtain ⟨hn, hbb1, hbb2⟩ := @flmJs_bound blo bhi i j2 h2
        ((b2jIdx b (a.getD i ' ')).filter (fun j => decide (blo ≤ j) && decide (j < bhi)))
        (fun _ => 0) best
        (fun j hj => by simpa using (List.mem_filter.mp hj).2)
        (fun j => Nat.zero_le _) hb1 hb2
      rw [flmIs]
      exact ih _ _ hn hbb1 hbb2

theorem extendLo_bound {a b : List Char} {alo blo bhi : Nat} :
    ∀ (fuel : Nat) (f : FLM), blo ≤ f.bestj → f.bestj + f.bestsize ≤ bhi →
      blo ≤ (extendLo a b alo blo fuel f).bestj ∧
      (extendLo a b alo blo fuel f).bestj + (extendLo a b alo blo fuel f).bestsize ≤ bhi := by
  intro fuel
  induction fuel with
  | zero => intro f h1 h2; exact ⟨h1, h2⟩
  | succ fuel ih =>
      intro f h1 h2
      rw [extendLo]
      split
      · rename_i hc
        obtain ⟨hc1, hc2, -⟩ := hc
        refine ih _ ?_ ?_
        · show blo ≤ f.bestj - 1
          omega
        · show f.bestj - 1 + (f.bestsize + 1) ≤ bhi
          omega
      · exact ⟨h1, h2⟩

theorem extendHi_bound {a b : List Char} {ahi bhi blo : Nat} :
    ∀ (fuel : Nat) (f : FLM), blo ≤ f.bestj → f.bestj + f.bestsize ≤ bhi →
      blo ≤ (extendHi a b ahi bhi fuel f).bestj ∧
      (extendHi a b ahi bhi fuel f).bestj + (extendHi a b ahi bhi fuel f).bestsize ≤ bhi := by
  intro fuel
  induction fuel with
  | zero => intro f h1 h2; exact ⟨h1, h2⟩
  | succ fuel ih =>
      intro f h1 h2
      rw [extendHi]
      split
      · rename_i hc
        obtain ⟨hc1, hc2, -⟩ := hc
        refine ih _ ?_ ?_
        · show blo ≤ f.bestj
          omega
        · show f.bestj + (f.bestsize + 1) ≤ bhi
          omega
      · exact ⟨h1, h2⟩

theorem find_longest_match_bound {a b : List Char} {alo ahi blo bhi : Nat} (h : blo ≤ bhi) :
    blo ≤ (find_longest_match a b alo ahi blo bhi).bestj ∧
    (find_longest_match a b alo ahi blo bhi).bestj +
      (find_longest_match a b alo ahi blo bhi).bestsize ≤ bhi := by
  unfold find_longest_match flmBase
  obtain ⟨h1, h2⟩ := @flmIs_bound a b blo bhi (List.range' alo (ahi - alo)) (fun _ => 0)
    ⟨alo, blo, 0⟩ (fun j => Nat.zero_le _) (le_refl blo) (by simpa using h)
  obtain ⟨h3, h4⟩ := @extendLo_bound a b alo blo bhi _ _ h1 h2
  exact @extendHi_bound a b ahi bhi blo _ _ h3 h4

theorem matchTotal_le {a b : List Char} :
    ∀ (fuel alo ahi blo bhi : Nat), blo ≤ bhi →
      matchTotal a b fuel alo ahi blo bhi ≤ bhi - blo := by
  intro fuel
  induction fuel with
  | zero => intro alo ahi blo bhi h; simp [matchTotal]
  | succ fuel ih =>
      intro alo ahi blo bhi h
      rw [matchTotal]
      split
      · omega
      · obtain ⟨h1, h2⟩ := @find_longest_match_bound a b alo ahi blo bhi h
        have hl := ih alo (find_longest_match a b alo ahi blo bhi).besti blo
          (find_longest_match a b alo ahi blo bhi).bestj h1
        have hr := ih ((find_longest_match a b alo ahi blo bhi).besti +
            (find_longest_match a b alo ahi blo bhi).bestsize) ahi
          ((find_longest_match a b alo ahi blo bhi).bestj +
            (find_longest_match a b alo ahi blo bhi).bestsize) bhi (by omega)
        omega

theorem ratioOf_lt_two {a b : List Char} (ha : a ≠ []) : ratioOf a b < 2 := by
  have hla : 1 ≤ a.length := List.length_pos.mpr ha
  unfold ratioOf
  rw [if_neg (by omega)]
  have hM : matchTotal a b (a.length + b.length) 0 a.length 0 b.length ≤ b.length := by
    simpa using matchTotal_le (a := a) (b := b) (a.length + b.length) 0 a.length 0 b.length
      (Nat.zero_le _)
  have hpos : (0 : ℚ) < (a.length : ℚ) + (b.length : ℚ) := by
    have h1 : (1 : ℚ) ≤ (a.length : ℚ) := by exact_mod_cast hla
    have h2 : (0 : ℚ) ≤ (b.length : ℚ) := by positivity
    linarith
  rw [div_lt_iff₀ hpos]
  have hMq : ((matchTotal a b (a.length + b.length) 0 a.length 0 b.length : Nat) : ℚ) ≤
      (b.length : ℚ) := by exact_mod_cast hM
  have h1q : (1 : ℚ) ≤ (a.length : ℚ) := by exact_mod_cast hla
  linarith

/-! ## Fuzzy resolver ranking -/

theorem mem_fuzzyScored {q : List Char} {pl : PriceDict} {x : ℚ × String × PriceItem}
    (hx : x ∈ fuzzyScored q pl) :
    rankKey? q x.2.2 = some x.1 ∧ (x.2.1, x.2.2) ∈ pl := by
  unfold fuzzyScored at hx
  rcases List.mem_filterMap.mp hx with ⟨kv, hkv, hmap⟩
  cases hr : rankKey? q kv.2 with
  | none => rw [hr] at hmap; simp at hmap
  | some r =>
      rw [hr] at hmap
      simp only [Option.map_some', Option.some.injEq] at hmap
      subst hmap
      exact ⟨hr, hkv⟩

theorem rankKey?_of_isSub {q : List Char} {item : PriceItem}
    (h : isSub q (lowerL item.name.data) = true) :
    rankKey? q item = some ((strIndexOf (lowerL item.name.data) q : ℚ)) := by
  unfold rankKey?
  rw [if_pos h]

theorem rankKey?_of_not_isSub {q : List Char} {item : PriceItem}
    (h : isSub q (lowerL item.name.data) = false) :
    rankKey? q item =
      (if 42/100 < ratioOf q (lowerL item.name.data) then
        some (1 - ratioOf q (lowerL item.name.data) + 10) else none) := by
  unfold rankKey?
  rw [if_neg (by simp [h])]

theorem fuzzyScored_sub_lt_sim {q : List Char} {pl : PriceDict}
    {x y : ℚ × String × PriceItem} (_hx : x ∈ fuzzyScored q pl) (hy : y ∈ fuzzyScored q pl)
    (_hxs : isSub q (lowerL x.2.2.name.data) = true) (hx9 : x.1 ≤ 9)
    (hys : isSub q (lowerL y.2.2.name.data) = false) : x.1 < y.1 := by
  obtain ⟨hry, -⟩ := mem_fuzzyScored hy
  have hqne : q ≠ [] := by
    intro hq0
    rw [hq0, isSub_nil_left] at hys
    simp at hys
  rw [rankKey?_of_not_isSub hys] at hry
  split at hry
  · rename_i hgt
    simp only [Option.some.injEq] at hry
    have hr2 : ratioOf q (lowerL y.2.2.name.data) < 2 := ratioOf_lt_two hqne
    rw [← hry]
    linarith
  · simp at hry

theorem fuzzySorted_pairwise (q : List Char) (pl : PriceDict) :
    List.Pairwise (fun (x y : ℚ × String × PriceItem) => x.1 ≤ y.1)
      (stableSort (fun x y => decide (x.1 ≤ y.1)) (fuzzyScored q pl)) := by
  have h := @stableSort_pairwise (ℚ × String × PriceItem)
    (fun x y => decide (x.1 ≤ y.1))
    (fun a b c h1 h2 => by
      simp only [decide_eq_true_eq] at h1 h2 ⊢
      exact le_trans h1 h2)
    (fun a b => by
      rcases le_total a.1 b.1 with h | h
      · exact Or.inl (by simpa using h)
      · exact Or.inr (by simpa using h))
    (fuzzyScored q pl)
  exact h.imp (fun hab => by simpa using hab)

/-- C1 (amended): for every non-empty query and non-empty catalog,
`fuzzy_find` scores each entry by `rankKey?` — an entry whose
lowercase name contains the lowercase (whitespace-stripped) query gets
rank key equal to the index of the first occurrence, an entry without
that substring is kept exactly when its similarity ratio exceeds 0.42,
with rank key `10 + (1 - ratio)` — and returns the scored list sorted
ascending by rank key (truncated, projected).  Every similarity-based
match ranks strictly after every substring match whose
first-occurrence index is at most 9; the original claim's stronger
sentence (after *every* substring match) fails for substring matches
at index 10 or beyond, see the counterexample. -/
theorem fuzzy_find_rank_spec (query : String) (price_list : PriceDict) (limit : Nat)
    (hq : query ≠ "") (hcat : price_list ≠ []) : FuzzyRankSpec query price_list limit := by
  simp only [FuzzyRankSpec]
  refine ⟨?_, ?_, ?_, fuzzySorted_pairwise _ _, ?_, ?_⟩
  · unfold fuzzy_find
    rw [if_neg (by simp [hq, hcat])]
  · intro item h
    exact ⟨rankKey?_of_isSub h, strIndexOf_firstOcc h⟩
  · intro item h
    exact rankKey?_of_not_isSub h
  · intro x hx y hy hxs hx9 hys
    exact fuzzyScored_sub_lt_sim hx hy hxs hx9 hys
  · intro i j hsim hsub h9
    by_contra hcon
    push_neg at hcon
    rcases eq_or_lt_of_le hcon with heq | hlt
    · have hij : i = j := Fin.ext heq
      rw [hij, hsub] at hsim
      simp at hsim
    · have hle := List.pairwise_iff_get.mp (fuzzySorted_pairwise (qNorm query) price_list)
        i j hlt
      have hmemj : (stableSort (fun x y => decide (x.1 ≤ y.1))
          (fuzzyScored (qNorm query) price_list)).get j ∈ fuzzyScored (qNorm query) price_list :=
        (mem_stableSort _).mp (List.get_mem _ _ _)
      have hmemi : (stableSort (fun x y => decide (x.1 ≤ y.1))
          (fuzzyScored (qNorm query) price_list)).get i ∈ fuzzyScored (qNorm query) price_list :=
        (mem_stableSort _).mp (List.get_mem _ _ _)
      have hlt2 := fuzzyScored_sub_lt_sim hmemj hmemi hsub h9 hsim
      exact absurd hle (not_le.mpr hlt2)

theorem fuzzy_find_rank_spec_witness :
    FuzzyRankSpec "xy"
      [("k1", ⟨"01234567890xy", "", 1, 1, ""⟩), ("k2", ⟨"yx", "", 1, 1, ""⟩)] 10 :=
  fuzzy_find_rank_spec _ _ _ (by decide) (by decide)

set_option maxRecDepth 100000 in
/-- C1 counterexample: with query "xy", the entry "yx" is kept only by
similarity (ratio 1/2 > 0.42, rank key 10.5) while "01234567890xy"
is a substring match with first occurrence at index 11; the returned
list places the similarity-based match *before* the substring match,
so a similarity match does not rank below every substring match. -/
theorem fuzzy_find_sim_before_substr :
    fuzzy_find "xy" [("k1", ⟨"01234567890xy", "", 1, 1, ""⟩), ("k2", ⟨"yx", "", 1, 1, ""⟩)] 10 =
      [⟨"yx", "", 1, 1, ""⟩, ⟨"01234567890xy", "", 1, 1, ""⟩] ∧
    isSub (qNorm "xy") (lowerL ("yx" : String).data) = false ∧
    42/100 < ratioOf (qNorm "xy") (lowerL ("yx" : String).data) ∧
    isSub (qNorm "xy") (lowerL ("01234567890xy" : String).data) = true ∧
    strIndexOf (lowerL ("01234567890xy" : String).data) (qNorm "xy") = 11 := by
  with_unfolding_all decide
